import Mathlib

/-!
Verification development for the QuantitationPipeline repository.

The definitions below are shallow embeddings of the Python source:
`quantify_proteins/cowinner.py`, `quantify_proteins/fdr.py`,
`quantify_proteins/quantitation.py` and `quantify_proteins/utilities.py`.
Python sets of accession strings become `Finset` values, pandas numeric
columns become `Rat`/`Int` lists, Python strings become `List Char`,
and raised exceptions become `Except` errors.
-/

section CoWinner

variable {α : Type} [DecidableEq α]

/-- Embedding of `utilities.reversed_enumerate`: `reversed(list(enumerate(seq)))`.
The pairs are materialised from the list as it is when called, so later
mutations of the original sequence do not change the enumerated values. -/
def reversedEnumerate {β : Type} (l : List β) : List (Nat × β) :=
  l.enum.reverse

/-- The inner loop of `_merge_to_base` (cowinner.py lines 137-143): the index of
the first row of the running base table whose accession set intersects the
source row's set, scanning the base rows in order (`break` at the first hit). -/
def firstMatchIdx (tgt : List (Finset α)) (src : Finset α) : Option Nat :=
  tgt.findIdx? fun t => decide (src ∩ t).Nonempty

/-- One source row of `_merge_to_base`: the state is the current base-table
accession sets together with the source rows collected for appending
(`add_row_idxs`).  A first intersecting base row absorbs the union; a row with
no intersecting base row is deferred for appending after the loop. -/
def mergeStep (st : List (Finset α) × List (Finset α)) (src : Finset α) :
    List (Finset α) × List (Finset α) :=
  match firstMatchIdx st.1 src with
  | some j => (st.1.set j (src ∪ st.1.getD j ∅), st.2)
  | none => (st.1, st.2 ++ [src])

/-- Embedding of `_merge_to_base` (cowinner.py lines 129-151), restricted to the
`Accession` column: every source row is merged into the first intersecting base
row (the updated base is visible to later source rows), and the rows that
matched no base row are appended at the end, in source order. -/
def mergeToBase (src tgt : List (Finset α)) : List (Finset α) :=
  let st := src.foldl mergeStep (tgt, [])
  st.1 ++ st.2

/-- The inner loop of the backward duplicate-resolution sweep in
`CoWinner.merge` (cowinner.py lines 110-113) for one outer row value `accs` at
outer index `i`: a fold over `reversed_enumerate(base_accs[:i])`.  The slice is
taken when the inner loop starts, so every pair `(j, accs2)` holds the value of
row `j` at that moment; a hit marks the outer row (`keep[i] = False`) and
overwrites row `j` with `accs | accs2`. -/
def innerSweep (accs : Finset α) (i : Nat) (base : List (Finset α)) :
    List (Finset α) × Bool :=
  (reversedEnumerate (base.take i)).foldl
    (fun st p =>
      if (accs ∩ p.2).Nonempty then (st.1.set p.1 (accs ∪ p.2), true) else st)
    (base, false)

/-- The backward duplicate-resolution sweep of `CoWinner.merge` (cowinner.py
lines 108-114).  The outer loop iterates over `reversed_enumerate(base_accs)`,
whose pairs were materialised before any mutation: the outer value for index
`i` is row `i`'s set as it stood when the sweep began, even when later (higher
index) iterations have since enlarged the row in place. -/
def backwardSweep (base0 : List (Finset α)) : List (Finset α) × List Bool :=
  (reversedEnumerate base0).foldl
    (fun st p =>
      let r := innerSweep p.2 p.1 st.1
      (r.1, if r.2 then st.2.set p.1 false else st.2))
    (base0, List.replicate base0.length true)

/-- Embedding of `base_df[keep]`: the rows whose `keep` flag stayed `True`, in
order. -/
def keepSurvivors {β : Type} (rows : List β) (keep : List Bool) : List β :=
  ((rows.zip keep).filter fun p => p.2).map fun p => p.1

/-- The base table `CoWinner.merge` builds before its duplicate-resolution sweep
(cowinner.py lines 93-102): the first file's reduced table, into which every
later file's reduced table is merged by `_merge_to_base`, in file order. -/
def mergedBase (files : List (List (Finset α))) : List (Finset α) :=
  match files with
  | [] => []
  | f :: rest => rest.foldl (fun b d => mergeToBase d b) f

/-- The accession sets of the consolidated cluster table `CoWinner.merge`
writes out (cowinner.py lines 85-120): merge all reduced files into a base
table, run the backward duplicate-resolution sweep, and keep the rows never
marked for removal.  (The final serialisation of each surviving set back to a
semicolon-joined sorted string is omitted: the claims below are about the
sets.) -/
def mergeAll (files : List (List (Finset α))) : List (Finset α) :=
  let base := mergedBase files
  let sw := backwardSweep base
  keepSurvivors sw.1 sw.2

/-- Index-based rendering of the sweep's inner loop: for a fixed outer value
`accs`, process inner indices `j-1, j-2, ..., 0`, reading each row's current
value, unioning `accs` into every intersecting row and reporting whether any
row intersected. -/
def specInnerSweep (accs : Finset α) : Nat → List (Finset α) → List (Finset α) × Bool
  | 0, base => (base, false)
  | j + 1, base =>
    let c := base.getD j ∅
    let st := if (accs ∩ c).Nonempty then (base.set j (accs ∪ c), true) else (base, false)
    let r := specInnerSweep accs j st.1
    (r.1, st.2 || r.2)

/-- Index-based rendering of the backward sweep in which the outer row value
for index `i` is taken from the immutable pre-sweep table `orig` (this is what
the materialised `reversed_enumerate` snapshot amounts to), while inner rows
are read at their current values. -/
def specOuterSweep (orig : List (Finset α)) :
    Nat → List (Finset α) → List Bool → List (Finset α) × List Bool
  | 0, base, keep => (base, keep)
  | i + 1, base, keep =>
    let r := specInnerSweep (orig.getD i ∅) i base
    specOuterSweep orig i r.1 (if r.2 then keep.set i false else keep)

/-- The backward sweep as an index-based traversal with pre-sweep outer
values: outer index `i` from `n-1` down to `0`, inner index `j` from `i-1`
down to `0`. -/
def sweepByIndex (base0 : List (Finset α)) : List (Finset α) × List Bool :=
  specOuterSweep base0 base0.length base0 (List.replicate base0.length true)

/-- The sweep as the specification's sentence reads when row `i`'s accession
set is also taken "as those sets stand at that point of the sweep": the outer
value for index `i` is row `i`'s current (possibly already enlarged) set. -/
def claimOuterSweep : Nat → List (Finset α) → List Bool → List (Finset α) × List Bool
  | 0, base, keep => (base, keep)
  | i + 1, base, keep =>
    let r := specInnerSweep (base.getD i ∅) i base
    claimOuterSweep i r.1 (if r.2 then keep.set i false else keep)

/-- The full current-value reading of the sweep, started on the merged table. -/
def claimSweep (base0 : List (Finset α)) : List (Finset α) × List Bool :=
  claimOuterSweep base0.length base0 (List.replicate base0.length true)

end CoWinner

section Fdr

/-- The errors `fdr.py` raises (both are `ValueError` in Python; the
constructors name the two failure conditions, which the specification calls
`InvalidThreshold` and `NameError`). -/
inductive FdrExn : Type
  | invalidThreshold (critFdr : Int)
  | markerNotFound
deriving DecidableEq

/-- Embedding of `CRITICAL_FDR_CELLS` (fdr.py lines 10-14): the dictionary
mapping a critical FDR threshold to the `(row, column)` cell of the FDR
spreadsheet holding the count. -/
def CRITICAL_FDR_CELLS : Int → Option (Nat × Nat) := fun t =>
  if t = 1 then some (5, 2)
  else if t = 5 then some (6, 2)
  else if t = 10 then some (7, 2)
  else none

/-- Embedding of `read_fdr_value` (fdr.py lines 41-52).  The opened
spreadsheet's "Protein Level Summary" sheet is abstracted as a cell function
`sheet : row → column → value` (with `int(...)` already applied); a threshold
outside the dictionary raises before the workbook is opened. -/
def read_fdr_value (sheet : Nat → Nat → Int) (critFdr : Int) : Except FdrExn Int :=
  match CRITICAL_FDR_CELLS critFdr with
  | none => .error (.invalidThreshold critFdr)
  | some cell => .ok (sheet cell.1 cell.2)

/-- The marker token `"ProteinSummary"` searched first by `get_fdr_name`. -/
def proteinMarker : List Char := "ProteinSummary".toList

/-- The marker token `"PeptideSummary"` searched second by `get_fdr_name`. -/
def peptideMarker : List Char := "PeptideSummary".toList

/-- The fixed suffix `"_FDR.xlsx"` substituted from the marker onward. -/
def fdrSuffix : List Char := "_FDR.xlsx".toList

/-- Embedding of Python's `str.find`: the index of the leftmost occurrence of
`pat` in the string, or `none` where Python returns `-1`. -/
def strFind (pat : List Char) : List Char → Option Nat
  | [] => if pat.isPrefixOf ([] : List Char) then some 0 else none
  | c :: t => if pat.isPrefixOf (c :: t) then some 0 else (strFind pat t).map (· + 1)

/-- Embedding of `get_fdr_name` (fdr.py lines 17-38): find `"ProteinSummary"`;
only when it is absent, find `"PeptideSummary"`; with neither, raise; else keep
the name up to the marker and append `"_FDR.xlsx"`. -/
def get_fdr_name (summaryName : List Char) : Except FdrExn (List Char) :=
  match strFind proteinMarker summaryName with
  | some idx => .ok (summaryName.take idx ++ fdrSuffix)
  | none =>
    match strFind peptideMarker summaryName with
    | some idx => .ok (summaryName.take idx ++ fdrSuffix)
    | none => .error .markerNotFound

/-- The index of the first occurrence of either marker token, whichever comes
first in the name: the claim's reading of the derivation. -/
def firstEitherMarkerIdx (s : List Char) : Option Nat :=
  match strFind proteinMarker s, strFind peptideMarker s with
  | some i, some j => some (min i j)
  | some i, none => some i
  | none, some j => some j
  | none, none => none

/-- The FDR-name derivation as the claim states it: truncate at the first
occurrence of either marker token. -/
def get_fdr_name_firstMarker (s : List Char) : Except FdrExn (List Char) :=
  match firstEitherMarkerIdx s with
  | some idx => .ok (s.take idx ++ fdrSuffix)
  | none => .error .markerNotFound

end Fdr

section Quantitation

/-- One row of the raw `PeptideSummary` table, restricted to the columns the
filter in `Quantifier._filter_peptides` reads: `N`, `Conf`, `Used` and the
configured ratio's value column. -/
structure PepRow : Type where
  n : Int
  conf : Rat
  used : Rat
  ratioVal : Rat
deriving DecidableEq

/-- Embedding of `Quantifier._filter_peptides` (quantitation.py lines 313-337):
keep the rows with `N <= max_n`, `Conf >= peptide_conf_threshold`, `Used == 1`
and ratio value `!= 100.`. -/
def filter_peptides (df : List PepRow) (maxN : Int) (confThreshold : Rat) : List PepRow :=
  df.filter fun r =>
    decide (r.n ≤ maxN) && decide (confThreshold ≤ r.conf) &&
      decide (r.used = 1) && decide (r.ratioVal ≠ 100)

/-- Embedding of `np.median` over a rational column: the middle element of the
sorted values for odd length, the mean of the two middle elements for even
length.  (For the empty column numpy yields NaN; this embedding returns `0`
there, a case no claim relies on.) -/
def npMedian (xs : List Rat) : Rat :=
  let s := List.insertionSort (fun a b : Rat => a ≤ b) xs
  if s.length % 2 = 1 then s.getD (s.length / 2) 0
  else (s.getD (s.length / 2 - 1) 0 + s.getD (s.length / 2) 0) / 2

/-- Embedding of `Quantifier._update_protein_df` (quantitation.py lines
467-487), restricted to the columns it reads and writes: from the protein
table's `exp(weighted average)` column it computes the single factor
`median_exp_avg = np.median(...)` and the column
`Normalized protein ratio = exp(weighted average) / median_exp_avg`, returning
both the updated column and the factor. -/
def update_protein_df (expWeightedAvg : List Rat) : List Rat × Rat :=
  let medianExpAvg := npMedian expWeightedAvg
  (expWeightedAvg.map fun x => x / medianExpAvg, medianExpAvg)

/-- Embedding of the `normalized {ratio}` column of
`Quantifier._finalize_peptide_df` (quantitation.py lines 386-412): every raw
ratio value divided by the `wx_norm_factor` handed in.  (The `ln` columns it
also writes are logarithms of these values and are not modelled.) -/
def finalize_peptide_norm (ratios : List Rat) (wxNormFactor : Rat) : List Rat :=
  ratios.map fun x => x / wxNormFactor

/-- The slice of `Quantifier._process_peptide_summary` (quantitation.py lines
244-253) connecting the two: `_update_protein_df` yields the factor, and the
very same factor is passed to `_finalize_peptide_df`. -/
def process_quant_norm (expWeightedAvg rawRatios : List Rat) :
    (List Rat × Rat) × List Rat :=
  let pf := update_protein_df expWeightedAvg
  (pf, finalize_peptide_norm rawRatios pf.2)

end Quantitation

section Columns

/-- The Python exceptions the per-run quantitation raises while looking up
columns: pandas `KeyError` for a missing column, and the package's own
`ConfigError`.  (`quantify_config.ConfigError` is raised only for
configuration problems; no column lookup raises it.) -/
inductive QuantExn : Type
  | keyError (column : List Char)
  | configError (message : List Char)
deriving DecidableEq

/-- The column labels of a `PeptideSummary` table as read from disk. -/
structure PepSummaryCols : Type where
  cols : List (List Char)
deriving DecidableEq

/-- A sequence of pandas column lookups `df[c]`, in order: the first missing
label raises `KeyError` naming it, as a lookup in a frame without that column
does. -/
def requireCols (df : PepSummaryCols) : List (List Char) → Except QuantExn Unit
  | [] => .ok ()
  | c :: cs => if c ∈ df.cols then requireCols df cs else .error (.keyError c)

/-- The error column name `f"%Err {ratio}"` of `_setup_peptide_df`. -/
def errCol (ratio : List Char) : List Char := "%Err ".toList ++ ratio

/-- The column accesses of `Quantifier._filter_peptides` (quantitation.py lines
326-337) in evaluation order: `df.N`, `df.Conf`, `df.Used`, then
`df[self._ratio]`. -/
def filter_peptides_cols (df : PepSummaryCols) (ratio : List Char) : Except QuantExn Unit :=
  requireCols df ["N".toList, "Conf".toList, "Used".toList, ratio]

/-- The column accesses of `Quantifier._setup_peptide_df` (quantitation.py
lines 342-364): the projection to `["N", "Unused", "Accessions", "Spectrum",
ratio, "%Err {ratio}"]` and the later reads of the ratio and error columns. -/
def setup_peptide_df_cols (df : PepSummaryCols) (ratio : List Char) : Except QuantExn Unit :=
  requireCols df ["N".toList, "Unused".toList, "Accessions".toList,
    "Spectrum".toList, ratio, errCol ratio]

/-- The column accesses of one quantitation run in execution order
(`_process_peptide_summary`, quantitation.py lines 239-241): the filter runs
before the peptide table is set up. -/
def process_peptide_summary_cols (df : PepSummaryCols) (ratio : List Char) :
    Except QuantExn Unit :=
  match filter_peptides_cols df ratio with
  | .ok _ => setup_peptide_df_cols df ratio
  | .error e => .error e

end Columns

section Reduce

/-- One row of a `ProteinSummary` table, restricted to the columns
`reduce_df` and `join_top_accessions` read: `N`, `Total` and `Accession`. -/
structure ProtRow : Type where
  n : Int
  total : Rat
  accession : List Char
deriving DecidableEq

/-- The pandas exception `reduce_df` can raise: `KeyError(label)` from a
label-based `Series` lookup. -/
inductive PdExn : Type
  | keyError (label : Nat)
deriving DecidableEq

/-- Lexicographic comparison of strings by code point, as Python compares
them and as `Series.sort_values` orders string columns. -/
def lexLeB : List Char → List Char → Bool
  | [], _ => true
  | _ :: _, [] => false
  | a :: s, b :: t => if a = b then lexLeB s t else decide (a < b)

/-- Embedding of `join_top_accessions` (cowinner.py lines 154-168) as
`reduce_df` applies it to one `N`-group.  The group's rows carry their labels
from the original table (pandas `groupby` keeps the original index), and
`df.Total[0]` is a label-based lookup: it reads the row labelled `0` and
raises `KeyError(0)` when the group has no such row.  The accessions of the
rows whose `Total` equals that value are sorted and joined with `"; "`. -/
def join_top_accessions (g : List (Nat × ProtRow)) : Except PdExn (List Char) :=
  match g.find? fun p => decide (p.1 = 0) with
  | none => .error (.keyError 0)
  | some p0 =>
    .ok (List.intercalate "; ".toList
      (List.insertionSort (fun a b => lexLeB a b = true)
        ((g.filter fun p => decide (p.2.total = p0.2.total)).map fun p => p.2.accession)))

/-- The rows of `df.drop_duplicates("N", keep="first")`: the first row of each
distinct `N` value, in original order. -/
def dedupByN (l : List (Nat × ProtRow)) : List ProtRow :=
  (l.foldl
    (fun (st : List Int × List ProtRow) p =>
      if p.2.n ∈ st.1 then st else (st.1 ++ [p.2.n], st.2 ++ [p.2]))
    ([], [])).2

/-- The distinct `N` values of the filtered table in ascending order: the group
keys as `groupby("N")` (which sorts keys) iterates them. -/
def sortedNKeys (l : List (Nat × ProtRow)) : List Int :=
  List.insertionSort (fun a b : Int => a ≤ b)
    ((l.foldl (fun (ks : List Int) p => if p.2.n ∈ ks then ks else ks ++ [p.2.n]) []))

/-- Overwriting the `Accession` column of the deduplicated rows with the
group strings: the assignment in `reduce_df` aligns the reset positional index
of `dedup_df` with the positional index of the `groupby` result. -/
def assignAccessions : List ProtRow → List (List Char) → List ProtRow
  | r :: rs, a :: as => { r with accession := a } :: assignAccessions rs as
  | rs, [] => rs
  | [], _ => []

/-- Embedding of `reduce_df` (cowinner.py lines 171-191).  Rows are labelled by
their original positions; the table is restricted to `N <= max_n`, one row per
distinct `N` is kept (first occurrence), and each kept row's `Accession` is
overwritten by `join_top_accessions` of its `N`-group, the groups evaluated in
ascending `N` order as `groupby.apply` does; a `KeyError` from any group
propagates. -/
def reduce_df (df : List ProtRow) (maxN : Int) : Except PdExn (List ProtRow) :=
  let labeled := df.enum.filter fun p => decide (p.2.n ≤ maxN)
  let dedup := dedupByN labeled
  (List.mapM (fun k => join_top_accessions (labeled.filter fun p => decide (p.2.n = k)))
      (sortedNKeys labeled)).map
    fun accs => assignAccessions dedup accs

end Reduce

section GroupQuant

/-- Worker for Python's `str.split(sep)` with a non-empty separator
`s1 :: srest`: scan the string, emitting the accumulated piece at every
occurrence of the separator. -/
def splitSepAux (s1 : Char) (srest : List Char) : List Char → List Char → List (List Char)
  | [], acc => [acc.reverse]
  | c :: t, acc =>
    if (s1 :: srest).isPrefixOf (c :: t) then
      acc.reverse :: splitSepAux s1 srest (t.drop srest.length) []
    else
      splitSepAux s1 srest t (c :: acc)
termination_by l _ => l.length
decreasing_by
  · simp only [List.length_cons, List.length_drop]
    omega
  · simp [Nat.lt_succ_self]

/-- Embedding of `str.split("; ")` as `replace_accessions` applies it to a
cluster's joined accession string. -/
def splitSemicolonSpace (s : List Char) : List (List Char) :=
  splitSepAux ';' [' '] s []

/-- One row of the pooled peptide table as `replace_accessions` reads it:
the sort keys `Expt` and `N`, the single-accession `Accessions` string, and
the row's remaining columns bundled opaquely in `rest`. -/
structure QuantRow (ε ρ : Type) : Type where
  expt : ε
  n : Int
  accessions : List Char
  rest : ρ

/-- The exploded cluster table of `replace_accessions` (quantitation.py lines
84-85): each cluster's `Accession` string paired with every token of its
`"; "`-split, one pair per occurrence. -/
def explodeClusters (clusters : List (List Char)) : List (List Char × List Char) :=
  clusters.flatMap fun a => (splitSemicolonSpace a).map fun tok => (a, tok)

/-- The exploded rows one pooled row joins with (`merge(..., on="Accessions")`,
an inner join): every exploded pair whose token equals the row's `Accessions`
value, each producing a copy of the row with `Accessions` replaced by the
cluster's full joined string (`base_df.Accessions = base_df.pop("Accession")`). -/
def rowMatches {ε ρ : Type} (clusters : List (List Char)) (r : QuantRow ε ρ) :
    List (QuantRow ε ρ) :=
  ((explodeClusters clusters).filter fun p => decide (p.2 = r.accessions)).map
    fun p => { r with accessions := p.1 }

/-- The inner join of `replace_accessions` before sorting: pandas preserves
the left frame's row order and lists each row's right-side matches in right
order. -/
def joinAccessions {ε ρ : Type} (base : List (QuantRow ε ρ)) (clusters : List (List Char)) :
    List (QuantRow ε ρ) :=
  base.flatMap (rowMatches clusters)

/-- The ordering of `sort_values(["Expt", "N"])`: by experiment label, ties by
`N`. -/
def exptNLe {ε ρ : Type} [LinearOrder ε] (a b : QuantRow ε ρ) : Prop :=
  a.expt < b.expt ∨ (a.expt = b.expt ∧ a.n ≤ b.n)

instance {ε ρ : Type} [LinearOrder ε] : DecidableRel (@exptNLe ε ρ _) := fun a b => by
  unfold exptNLe
  infer_instance

instance {ε ρ : Type} [LinearOrder ε] : IsTotal (QuantRow ε ρ) exptNLe :=
  ⟨fun a b => by
    rcases lt_trichotomy a.expt b.expt with h | h | h
    · exact Or.inl (Or.inl h)
    · rcases le_total a.n b.n with hn | hn
      · exact Or.inl (Or.inr ⟨h, hn⟩)
      · exact Or.inr (Or.inr ⟨h.symm, hn⟩)
    · exact Or.inr (Or.inl h)⟩

instance {ε ρ : Type} [LinearOrder ε] : IsTrans (QuantRow ε ρ) exptNLe :=
  ⟨fun a b c hab hbc => by
    rcases hab with h | ⟨he, hn⟩
    · rcases hbc with h' | ⟨he', _⟩
      · exact Or.inl (h.trans h')
      · exact Or.inl (he' ▸ h)
    · rcases hbc with h' | ⟨he', hn'⟩
      · exact Or.inl (he ▸ h')
      · exact Or.inr ⟨he.trans he', hn.trans hn'⟩⟩

/-- Embedding of `replace_accessions` (quantitation.py lines 70-89): explode
the consolidated cluster table on its split accession strings, inner-join the
pooled peptide rows to it on the `Accessions` value, replace each joined row's
`Accessions` by the cluster's full string, and sort by `Expt` then `N`.
(`sort_values` leaves the relative order of tied keys unspecified; the sort is
rendered here by a stable sort, and the theorems below rely only on sortedness
and multiset content.) -/
def replace_accessions {ε ρ : Type} [LinearOrder ε] (base : List (QuantRow ε ρ))
    (clusters : List (List Char)) : List (QuantRow ε ρ) :=
  List.insertionSort exptNLe (joinAccessions base clusters)

end GroupQuant

section DemoInputs

/-- A merged base table on which the sweep's outcome separates the two
readings of the traversal: rows `{3}, {1}, {2, 3}, {1, 2}` (accessions
abstracted to numbers). -/
def cexTable : List (Finset ℕ) := [{3}, {1}, {2, 3}, {1, 2}]

/-- Reduced table of experiment file A: one cluster `{P1, P2}`. -/
def scenarioFileA : List (Finset ℕ) := [{1, 2}]

/-- Reduced table of experiment file B: one cluster `{P2, P3}`. -/
def scenarioFileB : List (Finset ℕ) := [{2, 3}]

/-- A two-group `ProteinSummary` table: row 0 has `N = 1`, `Total = 10`,
`Accession = "A"`; row 1 has `N = 2`, `Total = 5`, `Accession = "B"`. -/
def demoProtTable : List ProtRow :=
  [⟨1, 10, "A".toList⟩, ⟨2, 5, "B".toList⟩]

/-- A `PeptideSummary` column set holding every column a run reads except the
ratio's error column `"%Err 114:113"`. -/
def demoPepCols : PepSummaryCols :=
  ⟨["N".toList, "Conf".toList, "Used".toList, "Unused".toList,
    "Accessions".toList, "Spectrum".toList, "114:113".toList]⟩

/-- The iTRAQ ratio of the column demo. -/
def demoRatio : List Char := "114:113".toList

/-- A file name containing both marker tokens, the `"PeptideSummary"` one
first. -/
def cexSummaryName : List Char := "PeptideSummaryProteinSummary".toList

end DemoInputs

/-- C5: for every FDR spreadsheet and requested threshold, `read_fdr_value`
returns the integer value of the fixed cell mapped to the threshold
(1 → (5,2), 5 → (6,2), 10 → (7,2)) for thresholds in {1, 5, 10}, and fails
with the invalid-threshold error for every other threshold (e.g. 7) without
reading the spreadsheet (the result does not depend on the sheet). -/
theorem c5_read_fdr_value_cells :
    (∀ sheet : Nat → Nat → Int,
      read_fdr_value sheet 1 = .ok (sheet 5 2)
        ∧ read_fdr_value sheet 5 = .ok (sheet 6 2)
        ∧ read_fdr_value sheet 10 = .ok (sheet 7 2))
    ∧ (∀ t : Int, t ≠ 1 → t ≠ 5 → t ≠ 10 →
        ∀ sheet sheet' : Nat → Nat → Int,
          read_fdr_value sheet t = .error (.invalidThreshold t)
            ∧ read_fdr_value sheet t = read_fdr_value sheet' t)
    ∧ read_fdr_value (fun _ _ => 0) 7 = .error (.invalidThreshold 7) := by
  refine ⟨fun sheet => ⟨rfl, rfl, rfl⟩, fun t h1 h5 h10 sheet sheet' => ?_, rfl⟩
  simp [read_fdr_value, CRITICAL_FDR_CELLS, h1, h5, h10]

/-- C7: the filter stage keeps a row if and only if `N ≤ fdr_count`,
confidence at least the configured threshold, the used-in-quantitation flag
equal to 1, and ratio value not 100; in particular every row whose ratio value
is exactly 100 is excluded, whatever its other column values. -/
theorem c7_filter_peptides_iff (df : List PepRow) (maxN : Int) (thr : Rat) (r : PepRow) :
    (r ∈ filter_peptides df maxN thr ↔
      r ∈ df ∧ r.n ≤ maxN ∧ thr ≤ r.conf ∧ r.used = 1 ∧ r.ratioVal ≠ 100)
    ∧ (r.ratioVal = 100 → r ∉ filter_peptides df maxN thr) := by
  have hiff : r ∈ filter_peptides df maxN thr ↔
      r ∈ df ∧ r.n ≤ maxN ∧ thr ≤ r.conf ∧ r.used = 1 ∧ r.ratioVal ≠ 100 := by
    simp [filter_peptides, List.mem_filter, and_assoc]
  exact ⟨hiff, fun h100 hmem => (hiff.mp hmem).2.2.2.2 h100⟩

/-- C8: the normalization factor of a run equals the median of the
`exp(weighted average)` column, computed once; every protein row's normalized
protein ratio is its `exp(weighted average)` divided by that single factor;
for the column `[0.8, 1.0, 1.5]` the factor is `1.0` and the normalized
ratios are unchanged; and the factor handed to the peptide finalize step is
that same median, dividing every raw ratio. -/
theorem c8_normalization_factor_median (expAvgs rawRatios : List Rat) :
    (process_quant_norm expAvgs rawRatios).1.2 = npMedian expAvgs
    ∧ (process_quant_norm expAvgs rawRatios).1.1
        = expAvgs.map (fun x => x / npMedian expAvgs)
    ∧ (process_quant_norm expAvgs rawRatios).2
        = rawRatios.map (fun x => x / npMedian expAvgs)
    ∧ npMedian [4/5, 1, 3/2] = 1
    ∧ update_protein_df [4/5, 1, 3/2] = ([4/5, 1, 3/2], 1) := by
  have hm : npMedian [4/5, 1, 3/2] = 1 := by
    norm_num [npMedian, List.insertionSort, List.orderedInsert]
  refine ⟨rfl, rfl, rfl, hm, ?_⟩
  rw [update_protein_df, hm]
  norm_num

/-- C4 (failing run): on the two-group table `demoProtTable` with all rows
passing the FDR cutoff, `reduce_df` raises `KeyError(0)`: the group of `N = 2`
holds only the row labelled 1, and `join_top_accessions` reads `df.Total[0]`,
a label-based lookup of original row 0 inside the group. -/
theorem c4_reduce_df_keyerror_eval :
    reduce_df demoProtTable 2 = .error (.keyError 0) := by rfl

/-- A chain of column lookups fails, when it fails, with `KeyError`: no
`ConfigError` is raised by any column access. -/
theorem requireCols_not_configError (df : PepSummaryCols) (cs : List (List Char))
    (m : List Char) : requireCols df cs ≠ .error (.configError m) := by
  induction cs with
  | nil => simp [requireCols]
  | cons c cs ih => by_cases h : c ∈ df.cols <;> simp [requireCols, h, ih]

/-- C9 (amended): a run whose peptide table lacks the plain ratio column
fails with pandas `KeyError` naming that column (raised by the filter's
`df[ratio]` lookup); one lacking only the `%Err {ratio}` column fails with
`KeyError` naming the error column (raised by the projection in
`_setup_peptide_df`); no missing column raises `ConfigError`. -/
theorem c9_missing_column_keyerror (df : PepSummaryCols) (ratio : List Char) :
    ("N".toList ∈ df.cols → "Conf".toList ∈ df.cols → "Used".toList ∈ df.cols →
      ratio ∉ df.cols →
      process_peptide_summary_cols df ratio = .error (.keyError ratio))
    ∧ ("N".toList ∈ df.cols → "Conf".toList ∈ df.cols → "Used".toList ∈ df.cols →
      "Unused".toList ∈ df.cols → "Accessions".toList ∈ df.cols →
      "Spectrum".toList ∈ df.cols → ratio ∈ df.cols → errCol ratio ∉ df.cols →
      process_peptide_summary_cols df ratio = .error (.keyError (errCol ratio)))
    ∧ (∀ m, process_peptide_summary_cols df ratio ≠ .error (.configError m)) := by
  refine ⟨fun hN hC hU hr => ?_, fun hN hC hU hUn hA hS hr he => ?_, fun m hEq => ?_⟩
  · simp at hN hC hU
    simp [process_peptide_summary_cols, filter_peptides_cols, requireCols, hN, hC, hU, hr]
  · simp at hN hC hU hUn hA hS
    simp [process_peptide_summary_cols, filter_peptides_cols, setup_peptide_df_cols,
      requireCols, hN, hC, hU, hUn, hA, hS, hr, he]
  · unfold process_peptide_summary_cols at hEq
    rcases hfc : filter_peptides_cols df ratio with e | u
    · rw [hfc] at hEq
      exact requireCols_not_configError df _ m (hfc.trans hEq)
    · rw [hfc] at hEq
      exact requireCols_not_configError df _ m hEq

/-- C9 (counterexample to the claim as stated): on a table holding every
column of a run except `"%Err 114:113"`, the run fails with
`KeyError("%Err 114:113")`, and with no `ConfigError` whatever its message:
the claim's `ConfigError` is not what the code raises. -/
theorem c9_keyerror_not_configerror_cex :
    process_peptide_summary_cols demoPepCols demoRatio
        = .error (.keyError ("%Err 114:113".toList))
    ∧ ∀ m, process_peptide_summary_cols demoPepCols demoRatio
        ≠ .error (.configError m) := by
  have h : process_peptide_summary_cols demoPepCols demoRatio
      = .error (.keyError ("%Err 114:113".toList)) := by rfl
  refine ⟨h, fun m hc => ?_⟩
  rw [h] at hc
  simp at hc

/-- Correctness of the `str.find` embedding, found case: the returned index
is an occurrence and no smaller index is one. -/
theorem strFind_some_leftmost (pat : List Char) (s : List Char) :
    ∀ i, strFind pat s = some i →
      pat <+: s.drop i ∧ ∀ k < i, ¬ pat <+: s.drop k := by
  induction s with
  | nil =>
    intro i h
    simp only [strFind] at h
    split at h
    · next hp =>
      cases h
      exact ⟨List.isPrefixOf_iff_prefix.mp hp,
        fun k hk => absurd hk (Nat.not_lt_zero k)⟩
    · exact absurd h (by simp)
  | cons c t ih =>
    intro i h
    simp only [strFind] at h
    split at h
    · next hp =>
      cases h
      exact ⟨List.isPrefixOf_iff_prefix.mp hp,
        fun k hk => absurd hk (Nat.not_lt_zero k)⟩
    · next hp =>
      rcases Option.map_eq_some'.mp h with ⟨i', hi', rfl⟩
      obtain ⟨h1, h2⟩ := ih i' hi'
      refine ⟨by simpa [List.drop_succ_cons] using h1, fun k hk => ?_⟩
      cases k with
      | zero =>
        simpa using fun hpre => hp (List.isPrefixOf_iff_prefix.mpr hpre)
      | succ k' =>
        simpa [List.drop_succ_cons] using h2 k' (by omega)

/-- Correctness of the `str.find` embedding, not-found case: no index of the
string starts an occurrence. -/
theorem strFind_none_no_occurrence (pat : List Char) (s : List Char) :
    strFind pat s = none → ∀ k, ¬ pat <+: s.drop k := by
  induction s with
  | nil =>
    intro h k
    simp only [strFind] at h
    split at h
    · exact absurd h (by simp)
    · next hp =>
      simpa using fun hpre => hp (List.isPrefixOf_iff_prefix.mpr hpre)
  | cons c t ih =>
    intro h k
    simp only [strFind] at h
    split at h
    · exact absurd h (by simp)
    · next hp =>
      have ht : strFind pat t = none := by
        rcases hf : strFind pat t with _ | i
        · rfl
        · rw [hf] at h
          simp at h
      cases k with
      | zero =>
        simpa using fun hpre => hp (List.isPrefixOf_iff_prefix.mpr hpre)
      | succ k' =>
        simpa [List.drop_succ_cons] using ih ht k'

/-- Converse of the not-found case: a pattern occurring nowhere is not
found. -/
theorem strFind_eq_none_of_no_occurrence (pat s : List Char)
    (h : ∀ k, ¬ pat <+: s.drop k) : strFind pat s = none := by
  rcases hf : strFind pat s with _ | i
  · rfl
  · exact absurd (strFind_some_leftmost pat s i hf).1 (h i)

/-- C6 (amended): the companion FDR path is derived by locating the leftmost
occurrence of `"ProteinSummary"` and, only when that marker is absent
anywhere, the leftmost occurrence of `"PeptideSummary"` (not the first
occurrence of either marker), replacing everything from the located marker
onward by `"_FDR.xlsx"`; with neither marker present anywhere the derivation
fails (a `ValueError` in the code, the error the specification names
`NameError`). -/
theorem c6_fdr_name_marker_priority (s : List Char) :
    (∀ i, strFind proteinMarker s = some i →
        proteinMarker <+: s.drop i ∧ (∀ k < i, ¬ proteinMarker <+: s.drop k)
          ∧ get_fdr_name s = .ok (s.take i ++ fdrSuffix))
    ∧ (strFind proteinMarker s = none → ∀ i, strFind peptideMarker s = some i →
        peptideMarker <+: s.drop i ∧ (∀ k < i, ¬ peptideMarker <+: s.drop k)
          ∧ (∀ k, ¬ proteinMarker <+: s.drop k)
          ∧ get_fdr_name s = .ok (s.take i ++ fdrSuffix))
    ∧ ((∀ k, ¬ proteinMarker <+: s.drop k) → (∀ k, ¬ peptideMarker <+: s.drop k) →
        get_fdr_name s = .error .markerNotFound) := by
  refine ⟨fun i hi => ?_, fun hnone i hi => ?_, fun hprot hpep => ?_⟩
  · obtain ⟨h1, h2⟩ := strFind_some_leftmost _ _ i hi
    exact ⟨h1, h2, by simp [get_fdr_name, hi]⟩
  · obtain ⟨h1, h2⟩ := strFind_some_leftmost _ _ i hi
    exact ⟨h1, h2, strFind_none_no_occurrence _ _ hnone,
      by simp [get_fdr_name, hnone, hi]⟩
  · simp [get_fdr_name, strFind_eq_none_of_no_occurrence _ _ hprot,
      strFind_eq_none_of_no_occurrence _ _ hpep]

/-- C6 (counterexample to the claim as stated): on a name holding
`"PeptideSummary"` before `"ProteinSummary"`, the code truncates at the later
`"ProteinSummary"` marker, not at the first occurrence of either marker. -/
theorem c6_both_markers_cex :
    get_fdr_name cexSummaryName = .ok ("PeptideSummary_FDR.xlsx".toList)
    ∧ get_fdr_name_firstMarker cexSummaryName = .ok ("_FDR.xlsx".toList)
    ∧ get_fdr_name cexSummaryName ≠ get_fdr_name_firstMarker cexSummaryName := by
  have h1 : get_fdr_name cexSummaryName
      = Except.ok ("PeptideSummary_FDR.xlsx".toList) := by rfl
  have h2 : get_fdr_name_firstMarker cexSummaryName
      = Except.ok ("_FDR.xlsx".toList) := by rfl
  refine ⟨h1, h2, fun h => ?_⟩
  rw [h1, h2] at h
  exact absurd (Except.ok.inj h) (by decide)

/-- Characterisation of the first-match scan of `_merge_to_base`, found case,
carrying `findIdx?`'s running start index: the found index is at least the
start, lands on an intersecting row, and every row before it is disjoint from
the source set. -/
theorem findIdx_inter_some {α : Type} [DecidableEq α] (s : Finset α) :
    ∀ (tgt : List (Finset α)) (st j : Nat),
      List.findIdx? (fun t => decide (s ∩ t).Nonempty) tgt st = some j →
      st ≤ j ∧ j - st < tgt.length ∧ (s ∩ tgt.getD (j - st) ∅).Nonempty
        ∧ ∀ k < j - st, s ∩ tgt.getD k ∅ = ∅ := by
  intro tgt
  induction tgt with
  | nil =>
    intro st j h
    simp [List.findIdx?] at h
  | cons t rest ih =>
    intro st j h
    rw [List.findIdx?_cons] at h
    cases hd : decide (s ∩ t).Nonempty with
    | true =>
      rw [hd, if_pos rfl] at h
      injection h with h
      subst h
      exact ⟨le_rfl, by simp, by simpa using of_decide_eq_true hd,
        fun k hk => absurd hk (by simp)⟩
    | false =>
      have hp : ¬ (s ∩ t).Nonempty := of_decide_eq_false hd
      rw [hd, if_neg (by simp)] at h
      obtain ⟨h1, h2, h3, h4⟩ := ih (st + 1) j h
      have hsub : j - st = (j - (st + 1)) + 1 := by omega
      refine ⟨by omega, by simp only [List.length_cons]; omega, ?_, ?_⟩
      · rw [hsub, List.getD_cons_succ]
        exact h3
      · intro k hk
        cases k with
        | zero =>
          simpa [Finset.not_nonempty_iff_eq_empty] using hp
        | succ k' =>
          rw [List.getD_cons_succ]
          exact h4 k' (by omega)

/-- Characterisation of the first-match scan, not-found case: no base row
intersects the source set. -/
theorem findIdx_inter_none {α : Type} [DecidableEq α] (s : Finset α) :
    ∀ (tgt : List (Finset α)) (st : Nat),
      List.findIdx? (fun t => decide (s ∩ t).Nonempty) tgt st = none →
      ∀ t ∈ tgt, s ∩ t = ∅ := by
  intro tgt
  induction tgt with
  | nil =>
    intro st _ t ht
    simp at ht
  | cons t rest ih =>
    intro st h u hu
    rw [List.findIdx?_cons] at h
    cases hd : decide (s ∩ t).Nonempty with
    | true => rw [hd, if_pos rfl] at h; exact absurd h (by simp)
    | false =>
      rw [hd, if_neg (by simp)] at h
      rcases List.mem_cons.mp hu with rfl | hu
      · exact Finset.not_nonempty_iff_eq_empty.mp (of_decide_eq_false hd)
      · exact ih (st + 1) h u hu

/-- C3: the cross-file merge is an online first-match union.  A source row
with an intersecting base row replaces the first such base row (every earlier
base row being disjoint from it) by the union of the two and appends nothing;
a source row with no intersecting base row is collected for appending.  On
the scenario tables, file A with cluster `{P1, P2}` and file B with cluster
`{P2, P3}`, consolidation yields the single cluster `{P1, P2, P3}`. -/
theorem c3_first_match_union_merge :
    (∀ (α : Type) [DecidableEq α] (tgt add : List (Finset α)) (s : Finset α) (j : Nat),
        firstMatchIdx tgt s = some j →
          mergeStep (tgt, add) s = (tgt.set j (s ∪ tgt.getD j ∅), add)
            ∧ j < tgt.length ∧ (s ∩ tgt.getD j ∅).Nonempty
            ∧ ∀ k < j, s ∩ tgt.getD k ∅ = ∅)
    ∧ (∀ (α : Type) [DecidableEq α] (tgt add : List (Finset α)) (s : Finset α),
        firstMatchIdx tgt s = none →
          mergeStep (tgt, add) s = (tgt, add ++ [s]) ∧ ∀ t ∈ tgt, s ∩ t = ∅)
    ∧ mergeAll [scenarioFileA, scenarioFileB] = [({1, 2, 3} : Finset ℕ)] := by
  refine ⟨?_, ?_, by decide⟩
  · intro α _ tgt add s j h
    obtain ⟨-, h2, h3, h4⟩ := findIdx_inter_some s tgt 0 j h
    simp only [Nat.sub_zero] at h2 h3 h4
    exact ⟨by simp [mergeStep, h], h2, h3, h4⟩
  · intro α _ tgt add s h
    exact ⟨by simp [mergeStep, h], findIdx_inter_none s tgt 0 h⟩

/-- Unfolding one step of a reversed enumeration of a prefix: the pair of the
last taken index comes first. -/
theorem reversedEnumerate_take_succ {β : Type} (l : List β) (i : Nat)
    (hi : i < l.length) :
    reversedEnumerate (l.take (i + 1)) = (i, l[i]) :: reversedEnumerate (l.take i) := by
  unfold reversedEnumerate
  rw [List.take_succ, List.getElem?_eq_getElem hi]
  rw [List.enum_append, List.reverse_append]
  simp [List.length_take, Nat.min_eq_left (le_of_lt hi), List.enumFrom]

/-- A `getD` value can only grow under a `set` whose new value contains the
old one. -/
theorem getD_set_subset {α : Type} [DecidableEq α] (base : List (Finset α))
    (j q : Nat) (x : Finset α) (hx : base.getD j ∅ ⊆ x) :
    base.getD q ∅ ⊆ (base.set j x).getD q ∅ := by
  simp only [List.getD_eq_getElem?_getD]
  by_cases hqj : j = q
  · subst hqj
    by_cases hl : j < base.length
    · rw [List.getElem?_set_self hl]
      simpa [List.getD_eq_getElem?_getD] using hx
    · rw [List.getElem?_set, if_pos rfl, if_neg hl,
        List.getElem?_eq_none (le_of_not_lt hl)]
  · rw [List.getElem?_set_ne hqj]

/-- The index-based inner sweep preserves the table's length. -/
theorem specInnerSweep_length {α : Type} [DecidableEq α] (accs : Finset α) :
    ∀ (j : Nat) (base : List (Finset α)),
      (specInnerSweep accs j base).1.length = base.length := by
  intro j
  induction j with
  | zero => intro base; rfl
  | succ j ih =>
    intro base
    simp only [specInnerSweep]
    by_cases hp : (accs ∩ base.getD j ∅).Nonempty
    · simp only [hp, if_true]
      rw [ih, List.length_set]
    · simp only [hp, if_false]
      exact ih base

/-- The index-based inner sweep only enlarges rows: every row's value before
the sweep is contained in its value after it. -/
theorem specInnerSweep_getD_subset {α : Type} [DecidableEq α] (accs : Finset α) :
    ∀ (j : Nat) (base : List (Finset α)) (q : Nat),
      base.getD q ∅ ⊆ (specInnerSweep accs j base).1.getD q ∅ := by
  intro j
  induction j with
  | zero => intro base q; exact subset_rfl
  | succ j ih =>
    intro base q
    simp only [specInnerSweep]
    by_cases hp : (accs ∩ base.getD j ∅).Nonempty
    · simp only [hp, if_true]
      exact (getD_set_subset base j q _ Finset.subset_union_right).trans (ih _ q)
    · simp only [hp, if_false]
      exact ih base q

/-- An unmarked inner sweep changed nothing: when no inner row intersected
the outer value, the table is returned unchanged and every row below the
bound is disjoint from the outer value. -/
theorem specInnerSweep_false {α : Type} [DecidableEq α] (accs : Finset α) :
    ∀ (j : Nat) (base : List (Finset α)), (specInnerSweep accs j base).2 = false →
      (specInnerSweep accs j base).1 = base ∧ ∀ k < j, accs ∩ base.getD k ∅ = ∅ := by
  intro j
  induction j with
  | zero =>
    intro base _
    exact ⟨rfl, fun k hk => absurd hk (Nat.not_lt_zero k)⟩
  | succ j ih =>
    intro base h
    simp only [specInnerSweep] at h ⊢
    by_cases hp : (accs ∩ base.getD j ∅).Nonempty
    · rw [if_pos hp] at h
      simp at h
    · rw [if_neg hp] at h ⊢
      simp only [Bool.false_or] at h
      obtain ⟨h1, h2⟩ := ih base h
      refine ⟨h1, fun k hk => ?_⟩
      rcases Nat.lt_succ_iff_lt_or_eq.mp hk with hk' | rfl
      · exact h2 k hk'
      · exact Finset.not_nonempty_iff_eq_empty.mp hp

/-- The fold of the code's inner loop over the materialised
`reversed_enumerate` slice agrees with the index-based inner sweep: the
enumeration pairs are drawn from `base`, the accumulator from `cur`, and the
two agree below the bound. -/
theorem innerFold_eq_spec {α : Type} [DecidableEq α] (accs : Finset α) :
    ∀ (i : Nat) (base cur : List (Finset α)) (m : Bool),
      i ≤ base.length → cur.length = base.length →
      (∀ j < i, cur.getD j ∅ = base.getD j ∅) →
      (reversedEnumerate (base.take i)).foldl
          (fun st p =>
            if (accs ∩ p.2).Nonempty then (st.1.set p.1 (accs ∪ p.2), true) else st)
          (cur, m)
        = ((specInnerSweep accs i cur).1, m || (specInnerSweep accs i cur).2) := by
  intro i
  induction i with
  | zero =>
    intro base cur m _ _ _
    simp [reversedEnumerate, specInnerSweep]
  | succ i ih =>
    intro base cur m hle hlen hagree
    have hi : i < base.length := by omega
    rw [reversedEnumerate_take_succ base i hi, List.foldl_cons]
    have hbd : base[i] = base.getD i ∅ := by
      simp [List.getD_eq_getElem?_getD, List.getElem?_eq_getElem hi]
    have hbc : base.getD i ∅ = cur.getD i ∅ := (hagree i (Nat.lt_succ_self i)).symm
    dsimp only
    rw [hbd, hbc]
    by_cases hp : (accs ∩ cur.getD i ∅).Nonempty
    · rw [if_pos hp,
        ih base (cur.set i (accs ∪ cur.getD i ∅)) true (by omega)
          (by rw [List.length_set]; exact hlen)
          (fun j hj => by
            rw [List.getD_eq_getElem?_getD, List.getElem?_set_ne (by omega : i ≠ j),
              ← List.getD_eq_getElem?_getD]
            exact hagree j (by omega))]
      simp only [specInnerSweep]
      rw [if_pos hp]
      simp
    · rw [if_neg hp, ih base cur m (by omega) hlen (fun j hj => hagree j (by omega))]
      simp only [specInnerSweep]
      rw [if_neg hp]
      simp

/-- The code's inner loop (a fold over `reversed_enumerate(base_accs[:i])`)
equals the index-based inner sweep. -/
theorem innerSweep_eq_spec {α : Type} [DecidableEq α] (accs : Finset α)
    (i : Nat) (base : List (Finset α)) (hle : i ≤ base.length) :
    innerSweep accs i base = specInnerSweep accs i base := by
  unfold innerSweep
  rw [innerFold_eq_spec accs i base base false hle rfl (fun _ _ => rfl)]
  simp

/-- The fold of the code's outer loop over the materialised
`reversed_enumerate` prefix of the pre-sweep table equals the index-based
outer sweep reading its outer values from that same table. -/
theorem outerFold_eq_spec {α : Type} [DecidableEq α] (orig : List (Finset α)) :
    ∀ (i : Nat) (cur : List (Finset α)) (keep : List Bool),
      i ≤ orig.length → cur.length = orig.length →
      (reversedEnumerate (orig.take i)).foldl
          (fun st p =>
            let r := innerSweep p.2 p.1 st.1
            (r.1, if r.2 then st.2.set p.1 false else st.2))
          (cur, keep)
        = specOuterSweep orig i cur keep := by
  intro i
  induction i with
  | zero =>
    intro cur keep _ _
    simp [reversedEnumerate, specOuterSweep]
  | succ i ih =>
    intro cur keep hle hlen
    have hi : i < orig.length := by omega
    rw [reversedEnumerate_take_succ orig i hi, List.foldl_cons]
    have hod : orig[i] = orig.getD i ∅ := by
      simp [List.getD_eq_getElem?_getD, List.getElem?_eq_getElem hi]
    dsimp only
    rw [hod, innerSweep_eq_spec (orig.getD i ∅) i cur (by omega)]
    simp only [specOuterSweep]
    exact ih _ _ (by omega) (by rw [specInnerSweep_length]; exact hlen)

/-- The backward duplicate-resolution sweep of `CoWinner.merge` equals the
index-based traversal whose outer values are the pre-sweep rows. -/
theorem backwardSweep_eq_sweepByIndex {α : Type} [DecidableEq α]
    (base0 : List (Finset α)) : backwardSweep base0 = sweepByIndex base0 := by
  unfold backwardSweep sweepByIndex
  have h := outerFold_eq_spec base0 base0.length base0
    (List.replicate base0.length true) le_rfl rfl
  rw [List.take_length] at h
  exact h

/-- The outer sweep never touches keep flags at or above its bound. -/
theorem specOuterSweep_keep_getD_ge {α : Type} [DecidableEq α] (orig : List (Finset α)) :
    ∀ (i : Nat) (cur : List (Finset α)) (keep : List Bool) (q : Nat), i ≤ q →
      (specOuterSweep orig i cur keep).2.getD q false = keep.getD q false := by
  intro i
  induction i with
  | zero => intro cur keep q _; rfl
  | succ i ih =>
    intro cur keep q hq
    simp only [specOuterSweep]
    rw [ih _ _ q (by omega)]
    cases hr : (specInnerSweep (orig.getD i ∅) i cur).2
    · rw [if_neg (by simp)]
    · rw [if_pos rfl, List.getD_eq_getElem?_getD,
        List.getElem?_set_ne (by omega : i ≠ q), ← List.getD_eq_getElem?_getD]

/-- Key invariant of the backward sweep: a row whose keep flag survives the
whole sweep has a pre-sweep accession set disjoint from the pre-sweep set of
every earlier row.  `cur` is the current table (which only ever enlarges the
pre-sweep rows of `orig`), `i` the outer bound still to process. -/
theorem specOuterSweep_disjoint {α : Type} [DecidableEq α] (orig : List (Finset α)) :
    ∀ (i : Nat) (cur : List (Finset α)) (keep : List Bool),
      i ≤ orig.length → cur.length = orig.length →
      (∀ j, orig.getD j ∅ ⊆ cur.getD j ∅) →
      ∀ q, q < i → ∀ j, j < q →
        (specOuterSweep orig i cur keep).2.getD q false = true →
        orig.getD q ∅ ∩ orig.getD j ∅ = ∅ := by
  intro i
  induction i with
  | zero =>
    intro cur keep _ _ _ q hq
    exact absurd hq (Nat.not_lt_zero q)
  | succ i ih =>
    intro cur keep hle hlen hsub q hq j hj hkeep
    simp only [specOuterSweep] at hkeep
    rcases Nat.lt_succ_iff_lt_or_eq.mp hq with hq' | rfl
    · exact ih (specInnerSweep (orig.getD i ∅) i cur).1 _ (by omega)
        (by rw [specInnerSweep_length]; exact hlen)
        (fun j' => (hsub j').trans (specInnerSweep_getD_subset _ i cur j'))
        q hq' j hj hkeep
    · cases hr : (specInnerSweep (orig.getD q ∅) q cur).2
      · obtain ⟨-, h2⟩ := specInnerSweep_false (orig.getD q ∅) q cur hr
        have hdis : orig.getD q ∅ ∩ cur.getD j ∅ = ∅ := h2 j hj
        have hmono : orig.getD q ∅ ∩ orig.getD j ∅
            ⊆ orig.getD q ∅ ∩ cur.getD j ∅ :=
          Finset.inter_subset_inter subset_rfl (hsub j)
        refine Finset.subset_empty.mp (hmono.trans ?_)
        rw [hdis]
      · rw [hr, if_pos rfl,
          specOuterSweep_keep_getD_ge orig q _ _ q le_rfl] at hkeep
        have hfalse : (keep.set q false).getD q false = false := by
          rw [List.getD_eq_getElem?_getD, List.getElem?_set]
          by_cases hql : q < keep.length <;> simp [hql]
        rw [hfalse] at hkeep
        exact absurd hkeep (by simp)

/-- Unfolding one row of the survivor filter. -/
theorem keepSurvivors_cons {β : Type} (r : β) (rs : List β) (t : Bool)
    (ks : List Bool) :
    keepSurvivors (r :: rs) (t :: ks)
      = if t then r :: keepSurvivors rs ks else keepSurvivors rs ks := by
  cases t <;> simp [keepSurvivors]

/-- Every survivor is a row of the table whose keep flag is true. -/
theorem mem_keepSurvivors {β : Type} (d : β) :
    ∀ (rows : List β) (keep : List Bool) (x : β), x ∈ keepSurvivors rows keep →
      ∃ q, q < rows.length ∧ rows.getD q d = x ∧ keep.getD q false = true := by
  intro rows
  induction rows with
  | nil =>
    intro keep x hx
    simp [keepSurvivors] at hx
  | cons r rs ih =>
    intro keep x hx
    cases keep with
    | nil => simp [keepSurvivors] at hx
    | cons t ks =>
      rw [keepSurvivors_cons] at hx
      cases t with
      | false =>
        rw [if_neg (by simp)] at hx
        obtain ⟨q, h1, h2, h3⟩ := ih ks x hx
        exact ⟨q + 1, by simpa using h1, by simpa using h2, by simpa using h3⟩
      | true =>
        rw [if_pos rfl] at hx
        rcases List.mem_cons.mp hx with rfl | hx
        · exact ⟨0, by simp, by simp, by simp⟩
        · obtain ⟨q, h1, h2, h3⟩ := ih ks x hx
          exact ⟨q + 1, by simpa using h1, by simpa using h2, by simpa using h3⟩

/-- Pairwise disjointness of the survivors follows from the indexwise
disjointness guarantee for kept rows. -/
theorem keepSurvivors_pairwise {α : Type} [DecidableEq α] :
    ∀ (rows : List (Finset α)) (keep : List Bool),
      (∀ q, q < rows.length → ∀ j, j < q → keep.getD q false = true →
        rows.getD q ∅ ∩ rows.getD j ∅ = ∅) →
      List.Pairwise (fun a b => a ∩ b = ∅) (keepSurvivors rows keep) := by
  intro rows
  induction rows with
  | nil =>
    intro keep _
    simp [keepSurvivors]
  | cons r rs ih =>
    intro keep h
    cases keep with
    | nil => simp [keepSurvivors]
    | cons t ks =>
      rw [keepSurvivors_cons]
      have htail : List.Pairwise (fun a b => a ∩ b = ∅) (keepSurvivors rs ks) :=
        ih ks fun q hq j hj hk => by
          simpa using h (q + 1) (by simpa using hq) (j + 1) (by omega)
            (by simpa using hk)
      cases t with
      | false => rw [if_neg (by simp)]; exact htail
      | true =>
        rw [if_pos rfl]
        refine List.Pairwise.cons (fun y hy => ?_) htail
        obtain ⟨q, h1, h2, h3⟩ := mem_keepSurvivors ∅ rs ks y hy
        have hd := h (q + 1) (by simpa using h1) 0 (Nat.succ_pos q)
          (by simpa using h3)
        rw [List.getD_cons_succ, List.getD_cons_zero, h2] at hd
        rw [Finset.inter_comm]
        exact hd

/-- C1 (counterexample to the claim as stated): consolidating the single
reduced table with accession sets `{3}, {1}, {2, 3}, {1, 2}`, the cluster
table `CoWinner.merge` produces has two surviving rows, `{2, 3}` and
`{1, 2, 3}`, whose accession sets intersect: the backward sweep reads each
outer row's set from its pre-sweep snapshot, so row 1 (originally `{1}`,
enlarged in place to `{1, 2, 3}`) is compared as `{1}` and never merged into
row 0. -/
theorem c1_intersecting_survivors_cex :
    ¬ List.Pairwise (fun a b => a ∩ b = ∅) (mergeAll [cexTable]) := by decide

/-- C1 (amended): after consolidation, the pre-sweep accession sets of any two
distinct surviving rows are disjoint — for every file list, the rows of the
merged base table that survive the backward sweep carry pairwise-disjoint sets
as they stood when the sweep began (their final, union-enlarged sets may still
intersect, as the counterexample shows). -/
theorem c1_survivors_presweep_disjoint {α : Type} [DecidableEq α]
    (files : List (List (Finset α))) :
    List.Pairwise (fun a b => a ∩ b = ∅)
      (keepSurvivors (mergedBase files) (backwardSweep (mergedBase files)).2) := by
  rw [backwardSweep_eq_sweepByIndex]
  refine keepSurvivors_pairwise (mergedBase files) _ fun q hq j hj hk => ?_
  exact specOuterSweep_disjoint (mergedBase files) (mergedBase files).length
    (mergedBase files) (List.replicate (mergedBase files).length true)
    le_rfl rfl (fun _ => subset_rfl) q hq j hj hk

/-- C2 (counterexample to the claim as stated): on the merged table
`{3}, {1}, {2, 3}, {1, 2}`, the sweep `CoWinner.merge` performs differs from
the traversal that reads row `i`'s accession set "as it stands at that point
of the sweep": the code leaves survivors `{2, 3}, {1, 2, 3}` where the
current-value traversal would leave the single row `{1, 2, 3}`. -/
theorem c2_sweep_not_current_value_cex :
    backwardSweep cexTable ≠ claimSweep cexTable
    ∧ mergeAll [cexTable]
        ≠ keepSurvivors (claimSweep cexTable).1 (claimSweep cexTable).2 := by
  exact ⟨by decide, by decide⟩

/-- C2 (amended): the final duplicate-resolution pass runs the outer index
`i` from `n-1` down to `0` and the inner index `j` from `i-1` down to `0`;
whenever row `i`'s *pre-sweep* accession set intersects row `j`'s *current*
set, that pre-sweep set is unioned into row `j` and row `i` is marked; exactly
the rows never marked survive.  (Only the reading of row `i`'s set differs
from the claim: the code's `reversed_enumerate` materialises the outer pairs
before the sweep mutates anything.) -/
theorem c2_sweep_presnapshot_traversal {α : Type} [DecidableEq α]
    (base0 : List (Finset α)) :
    backwardSweep base0 = sweepByIndex base0
    ∧ mergeAll [base0]
        = keepSurvivors (sweepByIndex base0).1 (sweepByIndex base0).2 := by
  refine ⟨backwardSweep_eq_sweepByIndex base0, ?_⟩
  show keepSurvivors (backwardSweep base0).1 (backwardSweep base0).2 = _
  rw [backwardSweep_eq_sweepByIndex]

/-- The count of a predicate over a `flatMap` is the sum of the counts over
the pieces. -/
theorem countP_flatMap {β γ : Type} (p : γ → Bool) (f : β → List γ) :
    ∀ l : List β,
      List.countP p (l.flatMap f) = (l.map fun a => List.countP p (f a)).sum := by
  intro l
  induction l with
  | nil => simp
  | cons a l ih => simp [List.countP_append, ih]

/-- A pooled row is duplicated once per matching exploded pair: its number of
joined copies is the total number of occurrences of its accession token over
all clusters. -/
theorem rowMatches_length {ε ρ : Type} (clusters : List (List Char))
    (r : QuantRow ε ρ) :
    (rowMatches clusters r).length
      = (clusters.map fun c => (splitSemicolonSpace c).count r.accessions).sum := by
  unfold rowMatches
  rw [List.length_map, ← List.countP_eq_length_filter]
  unfold explodeClusters
  rw [countP_flatMap]
  refine congrArg List.sum (congrArg (List.map · clusters) (funext fun a => ?_))
  rw [List.countP_map, List.count_eq_countP]
  refine List.countP_congr fun tok _ => ?_
  show decide (tok = r.accessions) = true ↔ (tok == r.accessions) = true
  by_cases h : tok = r.accessions <;> simp [h]

/-- A pooled row joins with no cluster exactly when its accession token occurs
in no cluster's split accession list: such rows are silently dropped by the
inner join. -/
theorem rowMatches_eq_nil_iff {ε ρ : Type} (clusters : List (List Char))
    (r : QuantRow ε ρ) :
    rowMatches clusters r = []
      ↔ ∀ c ∈ clusters, r.accessions ∉ splitSemicolonSpace c := by
  unfold rowMatches
  rw [List.map_eq_nil_iff, List.filter_eq_nil_iff]
  constructor
  · intro h c hc htok
    have hmem : ((c, r.accessions) : List Char × List Char) ∈ explodeClusters clusters := by
      unfold explodeClusters
      exact List.mem_flatMap.mpr ⟨c, hc, List.mem_map.mpr ⟨r.accessions, htok, rfl⟩⟩
    have := h _ hmem
    simp at this
  · intro h p hp
    unfold explodeClusters at hp
    obtain ⟨c, hc, hp2⟩ := List.mem_flatMap.mp hp
    obtain ⟨tok, htok, rfl⟩ := List.mem_map.mp hp2
    simp only [decide_eq_true_eq]
    intro heq
    exact h c hc (heq ▸ htok)

/-- Every joined row comes from a pooled row and a cluster containing its
accession token, with the `Accessions` value replaced by the cluster's full
joined string. -/
theorem joinAccessions_mem {ε ρ : Type} (base : List (QuantRow ε ρ))
    (clusters : List (List Char)) (q : QuantRow ε ρ) :
    q ∈ joinAccessions base clusters →
      ∃ r ∈ base, ∃ c ∈ clusters, r.accessions ∈ splitSemicolonSpace c
        ∧ q = { r with accessions := c } := by
  intro hq
  obtain ⟨r, hr, hq2⟩ := List.mem_flatMap.mp hq
  unfold rowMatches at hq2
  obtain ⟨p, hp, rfl⟩ := List.mem_map.mp hq2
  obtain ⟨hpe, hpeq⟩ := List.mem_filter.mp hp
  unfold explodeClusters at hpe
  obtain ⟨c, hc, hp2⟩ := List.mem_flatMap.mp hpe
  obtain ⟨tok, htok, rfl⟩ := List.mem_map.mp hp2
  have heq : tok = r.accessions := by simpa using hpeq
  subst heq
  exact ⟨r, hr, c, hc, htok, rfl⟩

/-- C10: the accession re-keying of group quantitation is an inner join of the
pooled peptide table with the exploded cluster table on the `Accessions`
value, sorted by experiment and `N`: the output is a permutation of the join
and is sorted; a pooled row whose accession occurs in no cluster contributes
nothing (it is silently dropped); every output row is a pooled row whose
`Accessions` value has been replaced by the full joined string of a cluster
containing it; and a row is duplicated once per matching token occurrence
across the clusters. -/
theorem c10_replace_accessions_join (ε ρ : Type) [LinearOrder ε]
    (base : List (QuantRow ε ρ)) (clusters : List (List Char)) :
    (replace_accessions base clusters).Perm (joinAccessions base clusters)
    ∧ List.Sorted exptNLe (replace_accessions base clusters)
    ∧ (∀ r ∈ base, (rowMatches clusters r = []
        ↔ ∀ c ∈ clusters, r.accessions ∉ splitSemicolonSpace c))
    ∧ (∀ q ∈ joinAccessions base clusters,
        ∃ r ∈ base, ∃ c ∈ clusters, r.accessions ∈ splitSemicolonSpace c
          ∧ q = { r with accessions := c })
    ∧ (∀ r ∈ base, (rowMatches clusters r).length
        = (clusters.map fun c => (splitSemicolonSpace c).count r.accessions).sum) := by
  exact ⟨List.perm_insertionSort exptNLe _, List.sorted_insertionSort exptNLe _,
    fun r _ => rowMatches_eq_nil_iff clusters r,
    fun q hq => joinAccessions_mem base clusters q hq,
    fun r _ => rowMatches_length clusters r⟩

